import Mathlib

/-!
Verification of the reconciliation engine of `sharepoint_sync.py`.

The Python program is embedded shallowly:

* A filesystem path is its list of components (`Path := List String`);
  `pathName` is Python's `Path(...).name` (the last component).
* A scanned tree (one of the dict comprehensions building `kis_files` /
  `client_files`) is an association list from root-relative path to file
  metadata (`FileMap`).  A Python dict always has distinct keys, so theorems
  carry `Nodup` hypotheses on the key lists where that matters.
* Python `set` iteration order is implementation-defined (hash-based and
  randomized across processes); the embedding makes the order explicit as
  the order of the input lists, so order-(in)dependence can be stated.
* `st_mtime` / `st_ctime` timestamps are modelled as integers; only their
  ordering is relevant to the program.
-/

namespace SharePointSync

/-- A filesystem path, as its list of components (Python `Path.parts`). -/
abbrev Path := List String

/-- Python `Path(p).name`: the last component of the path (empty for the
empty path, which never denotes a regular file). -/
def pathName (p : Path) : String := p.getLastD ""

/-- The per-file metadata the program reads via `stat()`: modification and
creation timestamps. -/
structure FileMeta where
  mtime : Int
  ctime : Int
deriving Repr, DecidableEq

/-- A scanned tree: association list from root-relative path to metadata.
Stands for the Python dicts `kis_files` / `client_files`. -/
abbrev FileMap := List (Path × FileMeta)

/-- The key list of an association list of files (the dict's keys). -/
def keys (m : FileMap) : List Path := m.map Prod.fst

/-- Association-list lookup: Python dict indexing `d[k]` (with distinct keys
the position of the entry is irrelevant). -/
def alookup {κ α : Type} [DecidableEq κ] : List (κ × α) → κ → Option α
  | [], _ => none
  | (k, v) :: rest, k0 => if k = k0 then some v else alookup rest k0

/-- Embedding of `should_exclude` (sharepoint_sync.py, lines 220-227).
`filePath` is the absolute path of the file, exactly as in the source, where
`file_path.parts` are the components of the absolute path produced by
`rglob`. -/
def should_exclude (excludedFiles excludedDirs : List String) (filePath : Path) : Bool :=
  if pathName filePath ∈ excludedFiles then true
  else if filePath.any (fun part => decide (part ∈ excludedDirs)) then true
  else false

/-- Embedding of the dict comprehensions of lines 229-238: `files` lists the
regular files under `root` as (root-relative path, metadata); the absolute
path of an entry is `root ++ relative`, and entries failing `should_exclude`
on their absolute path are kept. -/
def scanTree (root : Path) (files : FileMap) (excludedFiles excludedDirs : List String) :
    FileMap :=
  files.filter (fun e => !should_exclude excludedFiles excludedDirs (root ++ e.1))

/-- The mutable state of the move-detection loop (lines 243-256):
the live `kis_only` and `client_only` sets and the `moved_files` dict
(insertion-ordered, as Python dicts are). -/
structure MoveState where
  kis_only : List Path
  client_only : List Path
  moved : List (String × Path × Path)
deriving Repr, DecidableEq

/-- Python dict assignment `d[k] = v`: replace in place if the key is
present, else append. -/
def dictInsert (d : List (String × Path × Path)) (k : String) (v : Path × Path) :
    List (String × Path × Path) :=
  if d.any (fun e => decide (e.1 = k)) then
    d.map (fun e => if e.1 = k then (k, v) else e)
  else d ++ [(k, v)]

/-- One iteration of the move-detection loop (lines 247-256): take the next
`matching_file` (the first element of the live `client_only`, in its
iteration order, sharing the base name), and on a match record the pair under
the base name and remove both halves from the only-sets. -/
def moveStep (st : MoveState) (p : Path) : MoveState :=
  match st.client_only.find? (fun cf => decide (pathName cf = pathName p)) with
  | some cf =>
      MoveState.mk (st.kis_only.erase p) (st.client_only.erase cf)
        (dictInsert st.moved (pathName p) (p, cf))
  | none => st

/-- The move-detection loop: iterate over a snapshot (`kis_only.copy()`) of
the initial primary-only set while the state mutates. -/
def runMove (l : List Path) (st : MoveState) : MoveState :=
  l.foldl moveStep st

/-- `kis_only` as first computed on line 240, before move detection.
List order stands for the set's iteration order. -/
def kisOnlySet (kisFiles clientFiles : FileMap) : List Path :=
  (keys kisFiles).filter (fun p => decide (p ∉ keys clientFiles))

/-- `client_only` as first computed on line 241, before move detection. -/
def clientOnlySet (kisFiles clientFiles : FileMap) : List Path :=
  (keys clientFiles).filter (fun p => decide (p ∉ keys kisFiles))

/-- `common_files` (line 242): relative paths present in both trees. -/
def commonSet (kisFiles clientFiles : FileMap) : List Path :=
  (keys kisFiles).filter (fun p => decide (p ∈ keys clientFiles))

/-- One iteration of the updated-detection loop (lines 259-265): strictly
newer KIS mtime records the KIS absolute path, strictly newer client mtime
records the client absolute path, ties record nothing.  `common_files` is a
set, so the dict assignment is a fresh-key insertion, i.e. an append. -/
def updStep (kisRoot clientRoot : Path) (kisFiles clientFiles : FileMap)
    (acc : List (Path × Path)) (p : Path) : List (Path × Path) :=
  match alookup kisFiles p, alookup clientFiles p with
  | some km, some cm =>
      if cm.mtime < km.mtime then acc ++ [(p, kisRoot ++ p)]
      else if km.mtime < cm.mtime then acc ++ [(p, clientRoot ++ p)]
      else acc
  | _, _ => acc

/-- The result of `compare_sharepoints`: the 4-tuple
`(kis_only, client_only, moved_files, updated_files)`, with `updated_files`
mapping a common relative path to the absolute path of the latest copy. -/
structure ReconciliationResult where
  kis_only : List Path
  client_only : List Path
  moved : List (String × Path × Path)
  updated : List (Path × Path)
deriving Repr, DecidableEq

/-- Embedding of `compare_sharepoints` (lines 240-267), applied to the two
already-scanned file maps. -/
def compare_sharepoints (kisRoot clientRoot : Path) (kisFiles clientFiles : FileMap) :
    ReconciliationResult :=
  let k0 := kisOnlySet kisFiles clientFiles
  let c0 := clientOnlySet kisFiles clientFiles
  let mst := runMove k0 (MoveState.mk k0 c0 [])
  ReconciliationResult.mk mst.kis_only mst.client_only mst.moved
    ((commonSet kisFiles clientFiles).foldl (updStep kisRoot clientRoot kisFiles clientFiles) [])

/-- What `exists()` / `is_dir()` can observe about a root path. -/
inductive PathKind where
  | absent
  | file
  | dir
deriving Repr, DecidableEq

/-- One tree root as the `sync` command sees it: the resolved directory
string used in messages, what the filesystem says about it, its absolute
path components, and the regular files below it when it is a directory. -/
structure RootState where
  name : String
  kind : PathKind
  parts : Path
  tree : FileMap

/-- Python `Path.exists()`. -/
def existsFS (k : PathKind) : Bool := k != PathKind.absent

/-- Embedding of `SyncProfile.validate` (lines 89-96): each root is only
checked for existence. -/
def validate (kis client : RootState) : Except String Unit :=
  if !existsFS kis.kind then
    Except.error ("KIS directory '" ++ kis.name ++ "' does not exist.")
  else if !existsFS client.kind then
    Except.error ("Client directory '" ++ client.name ++ "' does not exist.")
  else Except.ok ()

/-- Python `Path.rglob` run from a root: yields the files below a directory,
and yields nothing when the root is not a directory (pathlib's selector
returns an empty iterator in that case). -/
def rglobFiles (r : RootState) : FileMap :=
  if r.kind = PathKind.dir then r.tree else []

/-- The comparison phase of the `sync` command (lines 317-339): validate the
profile's roots, then scan and compare; a validation failure aborts before
any comparison. -/
def sync_run (kis client : RootState) (excludedFiles excludedDirs : List String) :
    Except String ReconciliationResult :=
  match validate kis client with
  | Except.error e => Except.error e
  | Except.ok _ =>
      Except.ok (compare_sharepoints kis.parts client.parts
        (scanTree kis.parts (rglobFiles kis) excludedFiles excludedDirs)
        (scanTree client.parts (rglobFiles client) excludedFiles excludedDirs))

/-- Whether a `sync_run` reached the comparison phase. -/
def reachedCompare (r : Except String ReconciliationResult) : Bool :=
  match r with
  | Except.ok _ => true
  | Except.error _ => false

/-- Which tree a decision designates. -/
inductive Side where
  | kis
  | client
deriving Repr, DecidableEq

/-- The decision the moved-files handler makes for one pair, before any
interactive prompt: which side is authoritative, whether the
potentially-conflicting-move warning fires, and the source/destination of
the offered move. -/
structure MovedAction where
  latestSide : Side
  conflictWarning : Bool
  sourcePath : Path
  destinationPath : Path
deriving Repr, DecidableEq

/-- Embedding of the moved-files handler (lines 405-463) for one pair
`(kisRel, clientRel)`: nothing happens unless both absolute paths exist;
the side with the greater `st_ctime` is latest (ties go to the client side,
the `else` branch); the warning fires exactly when `filecmp.cmp` reports
different content; the outdated side's file is offered to be moved, within
its own tree, to the latest side's relative path. -/
def handleMovedPair (kisRoot clientRoot : Path) (kisRel clientRel : Path)
    (kisExists clientExists : Bool) (kisCtime clientCtime : Int) (contentEqual : Bool) :
    Option MovedAction :=
  if kisExists && clientExists then
    if clientCtime < kisCtime then
      some (MovedAction.mk Side.kis (!contentEqual)
        (clientRoot ++ clientRel) (clientRoot ++ kisRel))
    else
      some (MovedAction.mk Side.client (!contentEqual)
        (kisRoot ++ kisRel) (kisRoot ++ clientRel))
  else none

/-- The persisted configuration's exclusion lists (the `excluded_files` and
`excluded_dirs` fields of the JSON profile structure). -/
structure Config where
  excluded_files : List String
  excluded_dirs : List String
deriving Repr, DecidableEq

/-- Embedding of the `exclude_dir` command (lines 534-546): the returned
Bool records whether `save_profiles` rewrote the configuration file. -/
def exclude_dir (cfg : Config) (dirName : String) : Config × Bool :=
  if dirName ∈ cfg.excluded_dirs then (cfg, false)
  else (Config.mk cfg.excluded_files (cfg.excluded_dirs ++ [dirName]), true)

/-- Embedding of the `exclude_file` command (lines 548-560). -/
def exclude_file (cfg : Config) (fileName : String) : Config × Bool :=
  if fileName ∈ cfg.excluded_files then (cfg, false)
  else (Config.mk (cfg.excluded_files ++ [fileName]) cfg.excluded_dirs, true)

/-! ### Association-list lemmas -/

theorem alookup_eq_none_iff {κ α : Type} [DecidableEq κ] (l : List (κ × α)) (k : κ) :
    alookup l k = none ↔ k ∉ l.map Prod.fst := by
  induction l with
  | nil => simp [alookup]
  | cons e rest ih =>
      obtain ⟨k1, v1⟩ := e
      by_cases h : k1 = k
      · subst h
        simp [alookup]
      · simp [alookup, h, ih, Ne.symm h]

theorem alookup_mem {κ α : Type} [DecidableEq κ] {l : List (κ × α)} {k : κ} {v : α}
    (h : alookup l k = some v) : (k, v) ∈ l := by
  induction l with
  | nil => simp [alookup] at h
  | cons e rest ih =>
      obtain ⟨k1, v1⟩ := e
      by_cases h1 : k1 = k
      · subst h1
        simp [alookup] at h
        simp [h]
      · simp [alookup, h1] at h
        exact List.mem_cons_of_mem _ (ih h)

theorem mem_alookup {κ α : Type} [DecidableEq κ] {l : List (κ × α)} {k : κ} {v : α}
    (hmem : (k, v) ∈ l) (hnd : (l.map Prod.fst).Nodup) : alookup l k = some v := by
  induction l with
  | nil => simp at hmem
  | cons e rest ih =>
      obtain ⟨k1, v1⟩ := e
      simp only [List.map_cons, List.nodup_cons] at hnd
      rcases List.mem_cons.mp hmem with h | h
      · injection h with hk hv
        subst hk
        subst hv
        simp [alookup]
      · have hk1 : k1 ≠ k := by
          intro hk
          subst hk
          exact hnd.1 (List.mem_map.mpr ⟨(k1, v), h, rfl⟩)
        simp [alookup, hk1]
        exact ih h hnd.2

theorem alookup_append_none {κ α : Type} [DecidableEq κ] {l1 : List (κ × α)}
    (l2 : List (κ × α)) {k : κ} (h : alookup l1 k = none) :
    alookup (l1 ++ l2) k = alookup l2 k := by
  induction l1 with
  | nil => simp
  | cons e rest ih =>
      obtain ⟨k1, v1⟩ := e
      by_cases h1 : k1 = k
      · simp [alookup, h1] at h
      · simp [alookup, h1] at h ⊢
        exact ih h

theorem alookup_append_some {κ α : Type} [DecidableEq κ] {l1 : List (κ × α)}
    (l2 : List (κ × α)) {k : κ} {v : α} (h : alookup l1 k = some v) :
    alookup (l1 ++ l2) k = some v := by
  induction l1 with
  | nil => simp [alookup] at h
  | cons e rest ih =>
      obtain ⟨k1, v1⟩ := e
      by_cases h1 : k1 = k
      · simp [alookup, h1] at h ⊢
        exact h
      · simp [alookup, h1] at h ⊢
        exact ih h

theorem entry_eq_of_nodup_keys {κ α : Type} {l : List (κ × α)} {a b : κ × α}
    (hnd : (l.map Prod.fst).Nodup) (ha : a ∈ l) (hb : b ∈ l) (hk : a.1 = b.1) : a = b := by
  induction l with
  | nil => simp at ha
  | cons e rest ih =>
      simp only [List.map_cons, List.nodup_cons] at hnd
      rcases List.mem_cons.mp ha with h1 | h1 <;> rcases List.mem_cons.mp hb with h2 | h2
      · rw [h1, h2]
      · exact absurd (List.mem_map.mpr ⟨b, h2, (h1 ▸ hk).symm⟩) hnd.1
      · exact absurd (List.mem_map.mpr ⟨a, h1, h2 ▸ hk⟩) hnd.1
      · exact ih hnd.2 h1 h2

/-! ### dictInsert lemmas -/

theorem mem_dictInsert {d : List (String × Path × Path)} {k : String} {v : Path × Path}
    {e : String × Path × Path} (h : e ∈ dictInsert d k v) : e = (k, v) ∨ e ∈ d := by
  unfold dictInsert at h
  by_cases hany : d.any (fun e => decide (e.1 = k)) = true
  · simp only [hany, if_true] at h
    obtain ⟨x, hx, hxe⟩ := List.mem_map.mp h
    by_cases hxk : x.1 = k
    · simp [hxk] at hxe
      exact Or.inl hxe.symm
    · simp [hxk] at hxe
      exact Or.inr (hxe ▸ hx)
  · simp only [hany, if_false] at h
    rcases List.mem_append.mp h with h1 | h1
    · exact Or.inr h1
    · simp at h1
      exact Or.inl h1

theorem alookup_map_replace_self {d : List (String × Path × Path)} {k : String}
    (v : Path × Path) (h : ∃ e ∈ d, e.1 = k) :
    alookup (d.map (fun e => if e.1 = k then (k, v) else e)) k = some v := by
  induction d with
  | nil => simp at h
  | cons e rest ih =>
      obtain ⟨k1, v1⟩ := e
      simp only [List.map_cons]
      by_cases hek : k1 = k
      · have hhead : (if (k1, v1).1 = k then (k, v) else (k1, v1)) = (k, v) := if_pos hek
        rw [hhead]
        simp [alookup]
      · have hhead : (if (k1, v1).1 = k then (k, v) else (k1, v1)) = (k1, v1) := if_neg hek
        rw [hhead]
        have h2 : ∃ e ∈ rest, e.1 = k := by
          obtain ⟨x, hx, hxk⟩ := h
          rcases List.mem_cons.mp hx with h1 | h1
          · subst h1
            exact absurd hxk hek
          · exact ⟨x, h1, hxk⟩
        simp only [alookup, if_neg hek]
        exact ih h2

theorem alookup_map_replace_ne {d : List (String × Path × Path)} {k k0 : String}
    (v : Path × Path) (h : k ≠ k0) :
    alookup (d.map (fun e => if e.1 = k then (k, v) else e)) k0 = alookup d k0 := by
  induction d with
  | nil => simp
  | cons e rest ih =>
      obtain ⟨k1, v1⟩ := e
      simp only [List.map_cons]
      by_cases hek : k1 = k
      · have hhead : (if (k1, v1).1 = k then (k, v) else (k1, v1)) = (k, v) := if_pos hek
        rw [hhead]
        subst hek
        simp only [alookup, if_neg h]
        exact ih
      · have hhead : (if (k1, v1).1 = k then (k, v) else (k1, v1)) = (k1, v1) := if_neg hek
        rw [hhead]
        simp only [alookup, ih]

theorem alookup_dictInsert_self (d : List (String × Path × Path)) (k : String)
    (v : Path × Path) : alookup (dictInsert d k v) k = some v := by
  unfold dictInsert
  by_cases hany : d.any (fun e => decide (e.1 = k)) = true
  · rw [if_pos hany]
    apply alookup_map_replace_self
    obtain ⟨x, hx, hxk⟩ := List.any_eq_true.mp hany
    exact ⟨x, hx, of_decide_eq_true hxk⟩
  · rw [if_neg hany]
    have hnone : alookup d k = none := by
      rw [alookup_eq_none_iff]
      intro hmem
      obtain ⟨x, hx, hxk⟩ := List.mem_map.mp hmem
      exact hany (List.any_eq_true.mpr ⟨x, hx, decide_eq_true hxk⟩)
    rw [alookup_append_none _ hnone]
    simp [alookup]

theorem alookup_dictInsert_ne (d : List (String × Path × Path)) {k k0 : String}
    (v : Path × Path) (h : k ≠ k0) : alookup (dictInsert d k v) k0 = alookup d k0 := by
  unfold dictInsert
  by_cases hany : d.any (fun e => decide (e.1 = k)) = true
  · rw [if_pos hany]
    exact alookup_map_replace_ne v h
  · rw [if_neg hany]
    cases hl : alookup d k0 with
    | some v0 => exact alookup_append_some _ hl
    | none =>
        rw [alookup_append_none _ hl]
        simp [alookup, h]

theorem keys_dictInsert_nodup {d : List (String × Path × Path)} {k : String}
    {v : Path × Path} (hnd : (d.map Prod.fst).Nodup) :
    ((dictInsert d k v).map Prod.fst).Nodup := by
  unfold dictInsert
  by_cases hany : d.any (fun e => decide (e.1 = k)) = true
  · rw [if_pos hany]
    have : (d.map (fun e => if e.1 = k then (k, v) else e)).map Prod.fst = d.map Prod.fst := by
      rw [List.map_map]
      apply List.map_congr_left
      intro e he
      by_cases hek : e.1 = k
      · simp [hek]
      · simp [hek]
    rw [this]
    exact hnd
  · rw [if_neg hany]
    rw [List.map_append]
    rw [List.nodup_append]
    refine ⟨hnd, by simp, ?_⟩
    intro x hx
    simp only [List.map_cons, List.map_nil, List.mem_singleton]
    intro hxk
    subst hxk
    obtain ⟨e, he, hek⟩ := List.mem_map.mp hx
    exact hany (List.any_eq_true.mpr ⟨e, he, decide_eq_true hek⟩)

/-! ### Membership in the initial diff sets -/

theorem mem_kisOnlySet {kisFiles clientFiles : FileMap} {p : Path} :
    p ∈ kisOnlySet kisFiles clientFiles ↔ p ∈ keys kisFiles ∧ p ∉ keys clientFiles := by
  simp [kisOnlySet, List.mem_filter]

theorem mem_clientOnlySet {kisFiles clientFiles : FileMap} {p : Path} :
    p ∈ clientOnlySet kisFiles clientFiles ↔ p ∈ keys clientFiles ∧ p ∉ keys kisFiles := by
  simp [clientOnlySet, List.mem_filter]

theorem mem_commonSet {kisFiles clientFiles : FileMap} {p : Path} :
    p ∈ commonSet kisFiles clientFiles ↔ p ∈ keys kisFiles ∧ p ∈ keys clientFiles := by
  simp [commonSet, List.mem_filter]

theorem kisOnlySet_nodup {kisFiles clientFiles : FileMap}
    (h : (keys kisFiles).Nodup) : (kisOnlySet kisFiles clientFiles).Nodup :=
  h.filter _

theorem clientOnlySet_nodup {kisFiles clientFiles : FileMap}
    (h : (keys clientFiles).Nodup) : (clientOnlySet kisFiles clientFiles).Nodup :=
  h.filter _

/-! ### Basic facts about the move-detection loop -/

theorem runMove_nil (st : MoveState) : runMove [] st = st := rfl

theorem runMove_cons (p : Path) (l : List Path) (st : MoveState) :
    runMove (p :: l) st = runMove l (moveStep st p) := rfl

theorem runMove_append (l1 l2 : List Path) (st : MoveState) :
    runMove (l1 ++ l2) st = runMove l2 (runMove l1 st) :=
  List.foldl_append ..

theorem moveStep_kis_only_sublist (st : MoveState) (p : Path) :
    (moveStep st p).kis_only.Sublist st.kis_only := by
  unfold moveStep
  cases st.client_only.find? (fun cf => decide (pathName cf = pathName p)) with
  | some cf => exact List.erase_sublist _ _
  | none => exact List.Sublist.refl _

theorem moveStep_client_only_sublist (st : MoveState) (p : Path) :
    (moveStep st p).client_only.Sublist st.client_only := by
  unfold moveStep
  cases st.client_only.find? (fun cf => decide (pathName cf = pathName p)) with
  | some cf => exact List.erase_sublist _ _
  | none => exact List.Sublist.refl _

theorem runMove_kis_only_sublist (l : List Path) (st : MoveState) :
    (runMove l st).kis_only.Sublist st.kis_only := by
  induction l generalizing st with
  | nil => exact List.Sublist.refl _
  | cons p l ih =>
      rw [runMove_cons]
      exact (ih (moveStep st p)).trans (moveStep_kis_only_sublist st p)

theorem runMove_client_only_sublist (l : List Path) (st : MoveState) :
    (runMove l st).client_only.Sublist st.client_only := by
  induction l generalizing st with
  | nil => exact List.Sublist.refl _
  | cons p l ih =>
      rw [runMove_cons]
      exact (ih (moveStep st p)).trans (moveStep_client_only_sublist st p)

/-- The invariant the move-detection loop maintains, relative to the initial
only-sets `K0` and `C0`. -/
structure MoveInv (K0 C0 : List Path) (st : MoveState) : Prop where
  ksub : st.kis_only.Sublist K0
  csub : st.client_only.Sublist C0
  knd : st.kis_only.Nodup
  cnd : st.client_only.Nodup
  mkeys : (st.moved.map Prod.fst).Nodup
  halves : ∀ e ∈ st.moved,
    e.2.1 ∈ K0 ∧ e.2.2 ∈ C0 ∧ e.2.1 ∉ st.kis_only ∧ e.2.2 ∉ st.client_only ∧
    e.1 = pathName e.2.1 ∧ e.1 = pathName e.2.2

theorem moveInv_init {K0 C0 : List Path} (hk : K0.Nodup) (hc : C0.Nodup) :
    MoveInv K0 C0 (MoveState.mk K0 C0 []) := by
  refine ⟨List.Sublist.refl _, List.Sublist.refl _, hk, hc, by simp, ?_⟩
  intro e he
  simp at he

theorem moveStep_inv {K0 C0 : List Path} {st : MoveState} {p : Path}
    (hp : p ∈ K0) (inv : MoveInv K0 C0 st) : MoveInv K0 C0 (moveStep st p) := by
  unfold moveStep
  cases hfind : st.client_only.find? (fun cf => decide (pathName cf = pathName p)) with
  | none => exact inv
  | some cf =>
      have hcfmem : cf ∈ st.client_only := List.mem_of_find?_eq_some hfind
      have hstep := List.find?_some hfind
      have hcfname : pathName cf = pathName p := of_decide_eq_true hstep
      refine ⟨(List.erase_sublist _ _).trans inv.ksub,
        (List.erase_sublist _ _).trans inv.csub,
        inv.knd.erase _, inv.cnd.erase _, keys_dictInsert_nodup inv.mkeys, ?_⟩
      intro e he
      rcases mem_dictInsert he with rfl | hold
      · refine ⟨hp, inv.csub.subset hcfmem, ?_, ?_, rfl, hcfname.symm⟩
        · intro hmem
          exact ((inv.knd.mem_erase_iff).mp hmem).1 rfl
        · intro hmem
          exact ((inv.cnd.mem_erase_iff).mp hmem).1 rfl
      · obtain ⟨h1, h2, h3, h4, h5, h6⟩ := inv.halves e hold
        refine ⟨h1, h2, ?_, ?_, h5, h6⟩
        · intro hmem
          exact h3 (List.mem_of_mem_erase hmem)
        · intro hmem
          exact h4 (List.mem_of_mem_erase hmem)

theorem runMove_inv {K0 C0 : List Path} {l : List Path} {st : MoveState}
    (hl : ∀ p ∈ l, p ∈ K0) (inv : MoveInv K0 C0 st) : MoveInv K0 C0 (runMove l st) := by
  induction l generalizing st with
  | nil => exact inv
  | cons p l ih =>
      rw [runMove_cons]
      exact ih (fun q hq => hl q (List.mem_cons_of_mem _ hq))
        (moveStep_inv (hl p (List.mem_cons_self _ _)) inv)

/-! ### Characterization of the updated-files map -/

/-- The contribution of a single common path to `updated_files`. -/
def updEntry (kisRoot clientRoot : Path) (kisFiles clientFiles : FileMap) (p : Path) :
    Option (Path × Path) :=
  match alookup kisFiles p, alookup clientFiles p with
  | some km, some cm =>
      if cm.mtime < km.mtime then some (p, kisRoot ++ p)
      else if km.mtime < cm.mtime then some (p, clientRoot ++ p)
      else none
  | _, _ => none

theorem alookup_some_mem_keys {m : FileMap} {p : Path} {v : FileMeta}
    (h : alookup m p = some v) : p ∈ keys m :=
  List.mem_map.mpr ⟨(p, v), alookup_mem h, rfl⟩

theorem updStep_eq (kr cr : Path) (kf cfm : FileMap) (acc : List (Path × Path)) (p : Path) :
    updStep kr cr kf cfm acc p = acc ++ (updEntry kr cr kf cfm p).toList := by
  unfold updStep updEntry
  cases alookup kf p with
  | none => simp
  | some km =>
      cases alookup cfm p with
      | none => simp
      | some cm =>
          by_cases h1 : cm.mtime < km.mtime
          · simp [h1]
          · by_cases h2 : km.mtime < cm.mtime <;> simp [h1, h2]

theorem foldl_updStep_eq (kr cr : Path) (kf cfm : FileMap) :
    ∀ (l : List Path) (acc : List (Path × Path)),
      l.foldl (updStep kr cr kf cfm) acc = acc ++ l.filterMap (updEntry kr cr kf cfm)
  | [], acc => by simp
  | p :: l, acc => by
      rw [List.foldl_cons, updStep_eq, foldl_updStep_eq kr cr kf cfm l]
      cases h : updEntry kr cr kf cfm p <;> simp [List.filterMap_cons, h]

theorem updEntry_eq_some {kr cr : Path} {kf cfm : FileMap} {p : Path} {e : Path × Path}
    (h : updEntry kr cr kf cfm p = some e) :
    e.1 = p ∧ p ∈ keys kf ∧ p ∈ keys cfm := by
  unfold updEntry at h
  cases hk : alookup kf p with
  | none => rw [hk] at h; simp at h
  | some km =>
      cases hc : alookup cfm p with
      | none => rw [hk, hc] at h; simp at h
      | some cm =>
          rw [hk, hc] at h
          refine ⟨?_, alookup_some_mem_keys hk, alookup_some_mem_keys hc⟩
          by_cases h1 : cm.mtime < km.mtime
          · simp [h1] at h
            rw [← h]
          · by_cases h2 : km.mtime < cm.mtime
            · simp [h1, h2] at h
              rw [← h]
            · simp [h1, h2] at h

theorem alookup_filterMap_updEntry (kr cr : Path) (kf cfm : FileMap) (p : Path) :
    ∀ l : List Path,
      alookup (l.filterMap (updEntry kr cr kf cfm)) p =
        if p ∈ l then (updEntry kr cr kf cfm p).map Prod.snd else none := by
  intro l
  induction l with
  | nil => simp [alookup]
  | cons q l ih =>
      simp only [List.filterMap_cons]
      cases hq : updEntry kr cr kf cfm q with
      | none =>
          rw [ih]
          by_cases hpq : p = q
          · subst hpq
            simp [hq]
          · simp [hpq]
      | some e =>
          obtain ⟨he1, _, _⟩ := updEntry_eq_some hq
          obtain ⟨k1, v1⟩ := e
          simp only at he1
          subst he1
          by_cases hpq : k1 = p
          · subst hpq
            simp [alookup, hq]
          · have hne : ¬p = k1 := fun hh => hpq hh.symm
            simp only [alookup, if_neg hpq, ih]
            by_cases hpl : p ∈ l
            · simp [hpl, List.mem_cons]
            · simp [hpl, List.mem_cons, hne]

theorem compare_updated_eq (kr cr : Path) (kf cfm : FileMap) :
    (compare_sharepoints kr cr kf cfm).updated =
      (commonSet kf cfm).filterMap (updEntry kr cr kf cfm) := by
  rw [show (compare_sharepoints kr cr kf cfm).updated =
      (commonSet kf cfm).foldl (updStep kr cr kf cfm) [] from rfl]
  rw [foldl_updStep_eq, List.nil_append]

theorem updated_alookup (kr cr : Path) (kf cfm : FileMap) (p : Path) :
    alookup (compare_sharepoints kr cr kf cfm).updated p =
      if p ∈ commonSet kf cfm then (updEntry kr cr kf cfm p).map Prod.snd else none := by
  rw [compare_updated_eq, alookup_filterMap_updEntry]

/-! ### The final move state reached by `compare_sharepoints` -/

theorem compare_kis_only_eq (kr cr : Path) (kf cfm : FileMap) :
    (compare_sharepoints kr cr kf cfm).kis_only =
      (runMove (kisOnlySet kf cfm)
        (MoveState.mk (kisOnlySet kf cfm) (clientOnlySet kf cfm) [])).kis_only := rfl

theorem compare_client_only_eq (kr cr : Path) (kf cfm : FileMap) :
    (compare_sharepoints kr cr kf cfm).client_only =
      (runMove (kisOnlySet kf cfm)
        (MoveState.mk (kisOnlySet kf cfm) (clientOnlySet kf cfm) [])).client_only := rfl

theorem compare_moved_eq (kr cr : Path) (kf cfm : FileMap) :
    (compare_sharepoints kr cr kf cfm).moved =
      (runMove (kisOnlySet kf cfm)
        (MoveState.mk (kisOnlySet kf cfm) (clientOnlySet kf cfm) [])).moved := rfl

theorem compare_inv {kf cfm : FileMap} (hk : (keys kf).Nodup) (hc : (keys cfm).Nodup) :
    MoveInv (kisOnlySet kf cfm) (clientOnlySet kf cfm)
      (runMove (kisOnlySet kf cfm)
        (MoveState.mk (kisOnlySet kf cfm) (clientOnlySet kf cfm) [])) :=
  runMove_inv (fun _ hp => hp) (moveInv_init (kisOnlySet_nodup hk) (clientOnlySet_nodup hc))

/-! ### Scanner lemmas -/

theorem pathName_append (root : Path) {r : Path} (hr : r ≠ []) :
    pathName (root ++ r) = pathName r := by
  unfold pathName
  rw [List.getLastD_eq_getLast?, List.getLastD_eq_getLast?,
    List.getLast?_append_of_ne_nil root hr]

theorem should_exclude_of_name {exF exD : List String} {p : Path}
    (h : pathName p ∈ exF) : should_exclude exF exD p = true := by
  unfold should_exclude
  rw [if_pos h]

theorem should_exclude_of_component {exF exD : List String} {p : Path} {c : String}
    (hc : c ∈ p) (hd : c ∈ exD) : should_exclude exF exD p = true := by
  unfold should_exclude
  by_cases h1 : pathName p ∈ exF
  · rw [if_pos h1]
  · rw [if_neg h1, if_pos]
    exact List.any_eq_true.mpr ⟨c, hc, decide_eq_true hd⟩

theorem not_mem_scanTree_keys (root : Path) (files : FileMap) (exF exD : List String)
    {r : Path} (hex : should_exclude exF exD (root ++ r) = true) :
    r ∉ keys (scanTree root files exF exD) := by
  intro hmem
  obtain ⟨e, he, hee⟩ := List.mem_map.mp hmem
  obtain ⟨_, hkeep⟩ := List.mem_filter.mp he
  rw [hee, hex] at hkeep
  simp at hkeep

theorem scanTree_keys_nodup (root : Path) (files : FileMap) (exF exD : List String)
    (h : (keys files).Nodup) : (keys (scanTree root files exF exD)).Nodup :=
  h.sublist ((List.filter_sublist files).map Prod.fst)

/-- A path present in neither tree is in no category of the result. -/
theorem not_in_result (kr cr : Path) {kf cfm : FileMap} {p : Path}
    (hk : (keys kf).Nodup) (hc : (keys cfm).Nodup)
    (h1 : p ∉ keys kf) (h2 : p ∉ keys cfm) :
    p ∉ (compare_sharepoints kr cr kf cfm).kis_only ∧
    p ∉ (compare_sharepoints kr cr kf cfm).client_only ∧
    (∀ e ∈ (compare_sharepoints kr cr kf cfm).moved, p ≠ e.2.1 ∧ p ≠ e.2.2) ∧
    alookup (compare_sharepoints kr cr kf cfm).updated p = none := by
  have inv := compare_inv hk hc
  refine ⟨?_, ?_, ?_, ?_⟩
  · rw [compare_kis_only_eq]
    intro hm
    exact h1 (mem_kisOnlySet.mp (inv.ksub.subset hm)).1
  · rw [compare_client_only_eq]
    intro hm
    exact h2 (mem_clientOnlySet.mp (inv.csub.subset hm)).1
  · rw [compare_moved_eq]
    intro e he
    obtain ⟨hK, hC, _, _, _, _⟩ := inv.halves e he
    constructor
    · intro hp
      exact h1 (by rw [hp]; exact (mem_kisOnlySet.mp hK).1)
    · intro hp
      exact h2 (by rw [hp]; exact (mem_clientOnlySet.mp hC).1)
  · rw [updated_alookup, if_neg]
    intro hm
    exact h1 (mem_commonSet.mp hm).1

/-- C10: exclusion is tested against the components of the absolute path, so
a root whose own absolute path contains an excluded directory name scans to
the empty mapping. -/
theorem scan_root_component_excluded (root : Path) (files : FileMap)
    (exF exD : List String) (c : String) (hc : c ∈ root) (hd : c ∈ exD) :
    scanTree root files exF exD = [] := by
  unfold scanTree
  rw [List.filter_eq_nil_iff]
  intro e _
  rw [should_exclude_of_component (List.mem_append_left _ hc) hd]
  simp

theorem scan_root_component_excluded_witness :
    scanTree ["home", "Archive", "tree"] [(["a.txt"], FileMeta.mk 0 0)] [] ["Archive"] = [] :=
  scan_root_component_excluded ["home", "Archive", "tree"] [(["a.txt"], FileMeta.mk 0 0)]
    [] ["Archive"] "Archive" (by decide) (by decide)

/-- C4: a file whose base name is excluded, or with an excluded directory
component, appears in neither scan output nor in any category of the
reconciliation result. -/
theorem scan_exclusion (kisRoot clientRoot : Path) (kisTree clientTree : FileMap)
    (exF exD : List String) (r : Path)
    (hknd : (keys kisTree).Nodup) (hcnd : (keys clientTree).Nodup)
    (hr : r ≠ []) (hex : pathName r ∈ exF ∨ ∃ c ∈ r, c ∈ exD) :
    r ∉ keys (scanTree kisRoot kisTree exF exD) ∧
    r ∉ keys (scanTree clientRoot clientTree exF exD) ∧
    r ∉ (compare_sharepoints kisRoot clientRoot (scanTree kisRoot kisTree exF exD)
        (scanTree clientRoot clientTree exF exD)).kis_only ∧
    r ∉ (compare_sharepoints kisRoot clientRoot (scanTree kisRoot kisTree exF exD)
        (scanTree clientRoot clientTree exF exD)).client_only ∧
    (∀ e ∈ (compare_sharepoints kisRoot clientRoot (scanTree kisRoot kisTree exF exD)
        (scanTree clientRoot clientTree exF exD)).moved, r ≠ e.2.1 ∧ r ≠ e.2.2) ∧
    alookup (compare_sharepoints kisRoot clientRoot (scanTree kisRoot kisTree exF exD)
        (scanTree clientRoot clientTree exF exD)).updated r = none := by
  have hexk : ∀ root : Path, should_exclude exF exD (root ++ r) = true := by
    intro root
    rcases hex with h | ⟨c, hc1, hc2⟩
    · refine should_exclude_of_name ?_
      rw [pathName_append root hr]
      exact h
    · exact should_exclude_of_component (List.mem_append_right _ hc1) hc2
  have h1 := not_mem_scanTree_keys kisRoot kisTree exF exD (hexk kisRoot)
  have h2 := not_mem_scanTree_keys clientRoot clientTree exF exD (hexk clientRoot)
  obtain ⟨h3, h4, h5, h6⟩ := not_in_result kisRoot clientRoot
    (scanTree_keys_nodup kisRoot kisTree exF exD hknd)
    (scanTree_keys_nodup clientRoot clientTree exF exD hcnd) h1 h2
  exact ⟨h1, h2, h3, h4, h5, h6⟩

theorem scan_exclusion_witness :
    (["private", "a.txt"] : Path) ∉
      keys (scanTree ["K"] [(["private", "a.txt"], FileMeta.mk 0 0)] [] ["private"]) :=
  (scan_exclusion ["K"] ["C"] [(["private", "a.txt"], FileMeta.mk 0 0)] [] [] ["private"]
    ["private", "a.txt"] (by decide) (by decide) (by decide)
    (Or.inr ⟨"private", by decide, by decide⟩)).1

/-- C9: the exclude commands are idempotent on the persisted configuration:
a name already present leaves the configuration untouched and unsaved, an
absent name is appended exactly once, and a second application of the same
command changes nothing. -/
theorem exclude_commands_idempotent (cfg : Config) (d f : String) :
    (exclude_dir (exclude_dir cfg d).1 d).1 = (exclude_dir cfg d).1 ∧
    (exclude_dir (exclude_dir cfg d).1 d).2 = false ∧
    (exclude_file (exclude_file cfg f).1 f).1 = (exclude_file cfg f).1 ∧
    (exclude_file (exclude_file cfg f).1 f).2 = false ∧
    (d ∈ cfg.excluded_dirs → exclude_dir cfg d = (cfg, false)) ∧
    (d ∉ cfg.excluded_dirs →
      (exclude_dir cfg d).1.excluded_dirs = cfg.excluded_dirs ++ [d] ∧
      (exclude_dir cfg d).1.excluded_dirs.count d = 1 ∧
      (exclude_dir cfg d).2 = true) ∧
    (f ∈ cfg.excluded_files → exclude_file cfg f = (cfg, false)) ∧
    (f ∉ cfg.excluded_files →
      (exclude_file cfg f).1.excluded_files = cfg.excluded_files ++ [f] ∧
      (exclude_file cfg f).1.excluded_files.count f = 1 ∧
      (exclude_file cfg f).2 = true) := by
  have hdir : ∀ c : Config, d ∈ c.excluded_dirs → exclude_dir c d = (c, false) := by
    intro c h
    unfold exclude_dir
    rw [if_pos h]
  have hfile : ∀ c : Config, f ∈ c.excluded_files → exclude_file c f = (c, false) := by
    intro c h
    unfold exclude_file
    rw [if_pos h]
  have hdmem : d ∈ (exclude_dir cfg d).1.excluded_dirs := by
    unfold exclude_dir
    by_cases hd : d ∈ cfg.excluded_dirs
    · rw [if_pos hd]
      exact hd
    · rw [if_neg hd]
      simp
  have hfmem : f ∈ (exclude_file cfg f).1.excluded_files := by
    unfold exclude_file
    by_cases hf : f ∈ cfg.excluded_files
    · rw [if_pos hf]
      exact hf
    · rw [if_neg hf]
      simp
  refine ⟨?_, ?_, ?_, ?_, hdir cfg, ?_, hfile cfg, ?_⟩
  · rw [hdir _ hdmem]
  · rw [hdir _ hdmem]
  · rw [hfile _ hfmem]
  · rw [hfile _ hfmem]
  · intro hd
    unfold exclude_dir
    rw [if_neg hd]
    refine ⟨rfl, ?_, rfl⟩
    simp [List.count_append, List.count_eq_zero.mpr hd]
  · intro hf
    unfold exclude_file
    rw [if_neg hf]
    refine ⟨rfl, ?_, rfl⟩
    simp [List.count_append, List.count_eq_zero.mpr hf]

theorem exclude_commands_idempotent_witness :
    (exclude_dir (exclude_dir (Config.mk [] []) "Archive").1 "Archive").1 =
      (exclude_dir (Config.mk [] []) "Archive").1 :=
  (exclude_commands_idempotent (Config.mk [] []) "Archive" "x").1

/-- C7: for a moved pair present on both sides, the side with the strictly
greater creation time keeps its directory placement, the
potential-conflicting-move warning fires exactly when content differs, and
the other side's file is the one offered to be moved (inside its own tree)
to the latest side's relative path. -/
theorem moved_pair_conflict_policy (kisRoot clientRoot kisRel clientRel : Path)
    (kisCtime clientCtime : Int) (contentEqual : Bool) :
    (clientCtime < kisCtime →
      handleMovedPair kisRoot clientRoot kisRel clientRel true true
          kisCtime clientCtime contentEqual =
        some (MovedAction.mk Side.kis (!contentEqual)
          (clientRoot ++ clientRel) (clientRoot ++ kisRel))) ∧
    (kisCtime < clientCtime →
      handleMovedPair kisRoot clientRoot kisRel clientRel true true
          kisCtime clientCtime contentEqual =
        some (MovedAction.mk Side.client (!contentEqual)
          (kisRoot ++ kisRel) (kisRoot ++ clientRel))) := by
  constructor
  · intro h
    unfold handleMovedPair
    simp [h]
  · intro h
    unfold handleMovedPair
    simp [lt_asymm h]

theorem moved_pair_conflict_policy_witness :
    handleMovedPair ["K"] ["C"] ["a", "f"] ["b", "f"] true true 5 3 false =
      some (MovedAction.mk Side.kis true ["C", "b", "f"] ["C", "a", "f"]) :=
  (moved_pair_conflict_policy ["K"] ["C"] ["a", "f"] ["b", "f"] 5 3 false).1 (by decide)

/-- C5 (amended): a root that does not exist aborts the run before any
comparison with an error naming that root; existence is the only check, so
a root that exists but is not a directory is not rejected. -/
theorem sync_root_validation (kis client : RootState) (exF exD : List String) :
    (kis.kind = PathKind.absent →
      sync_run kis client exF exD =
        Except.error ("KIS directory '" ++ kis.name ++ "' does not exist.")) ∧
    (existsFS kis.kind = true → client.kind = PathKind.absent →
      sync_run kis client exF exD =
        Except.error ("Client directory '" ++ client.name ++ "' does not exist.")) := by
  constructor
  · intro h
    unfold sync_run validate
    rw [h]
    simp [existsFS]
  · intro h1 h2
    unfold sync_run validate
    rw [h2]
    simp [existsFS] at h1
    simp [existsFS, h1]

theorem sync_root_validation_witness :
    sync_run (RootState.mk "/kis" PathKind.absent [] [])
        (RootState.mk "/client" PathKind.dir [] []) [] [] =
      Except.error ("KIS directory '" ++ "/kis" ++ "' does not exist.") :=
  (sync_root_validation (RootState.mk "/kis" PathKind.absent [] [])
    (RootState.mk "/client" PathKind.dir [] []) [] []).1 rfl

/-- C5 counterexample: a KIS root that exists as a regular file (so it is
not a directory) passes validation, and the run proceeds to the comparison
instead of failing with a not-found error. -/
theorem sync_file_root_no_error :
    (RootState.mk "/kis" PathKind.file ["kis"] []).kind ≠ PathKind.dir ∧
    existsFS (RootState.mk "/kis" PathKind.file ["kis"] []).kind = true ∧
    reachedCompare (sync_run (RootState.mk "/kis" PathKind.file ["kis"] [])
      (RootState.mk "/client" PathKind.dir ["client"] []) [] []) = true := by
  refine ⟨by decide, by decide, ?_⟩
  rfl

/-- C6: each produced moved pair matches base names, its halves come from
the respective initial only-sets, and both halves are absent from the final
only-sets. -/
theorem moved_pairs_symmetric (kr cr : Path) (kf cfm : FileMap)
    (hk : (keys kf).Nodup) (hc : (keys cfm).Nodup) :
    ∀ e ∈ (compare_sharepoints kr cr kf cfm).moved,
      pathName e.2.1 = pathName e.2.2 ∧
      e.2.1 ∈ kisOnlySet kf cfm ∧
      e.2.2 ∈ clientOnlySet kf cfm ∧
      e.2.1 ∉ (compare_sharepoints kr cr kf cfm).kis_only ∧
      e.2.2 ∉ (compare_sharepoints kr cr kf cfm).client_only := by
  intro e he
  rw [compare_moved_eq] at he
  obtain ⟨h1, h2, h3, h4, h5, h6⟩ := (compare_inv hk hc).halves e he
  rw [compare_kis_only_eq, compare_client_only_eq]
  exact ⟨h5.symm.trans h6, h1, h2, h3, h4⟩

theorem moved_pairs_symmetric_witness :
    pathName ["x", "f"] = pathName ["y", "f"] ∧
    (["x", "f"] : Path) ∈
      kisOnlySet [(["x", "f"], FileMeta.mk 0 0)] [(["y", "f"], FileMeta.mk 0 0)] ∧
    (["y", "f"] : Path) ∈
      clientOnlySet [(["x", "f"], FileMeta.mk 0 0)] [(["y", "f"], FileMeta.mk 0 0)] ∧
    (["x", "f"] : Path) ∉ (compare_sharepoints ["K"] ["C"]
      [(["x", "f"], FileMeta.mk 0 0)] [(["y", "f"], FileMeta.mk 0 0)]).kis_only ∧
    (["y", "f"] : Path) ∉ (compare_sharepoints ["K"] ["C"]
      [(["x", "f"], FileMeta.mk 0 0)] [(["y", "f"], FileMeta.mk 0 0)]).client_only :=
  moved_pairs_symmetric ["K"] ["C"] [(["x", "f"], FileMeta.mk 0 0)]
    [(["y", "f"], FileMeta.mk 0 0)] (by decide) (by decide)
    ("f", ["x", "f"], ["y", "f"]) (by decide)

/-- C3: on a common path, equal mtimes leave the path out of every category;
a strictly newer side is recorded in `updated` as that side's absolute
path. -/
theorem update_detection (kr cr : Path) (kf cfm : FileMap)
    (hk : (keys kf).Nodup) (hc : (keys cfm).Nodup) (p : Path) (km cm : FileMeta)
    (hkm : alookup kf p = some km) (hcm : alookup cfm p = some cm) :
    (km.mtime = cm.mtime →
      p ∉ (compare_sharepoints kr cr kf cfm).kis_only ∧
      p ∉ (compare_sharepoints kr cr kf cfm).client_only ∧
      (∀ e ∈ (compare_sharepoints kr cr kf cfm).moved, p ≠ e.2.1 ∧ p ≠ e.2.2) ∧
      alookup (compare_sharepoints kr cr kf cfm).updated p = none) ∧
    (cm.mtime < km.mtime →
      alookup (compare_sharepoints kr cr kf cfm).updated p = some (kr ++ p)) ∧
    (km.mtime < cm.mtime →
      alookup (compare_sharepoints kr cr kf cfm).updated p = some (cr ++ p)) := by
  have hpk : p ∈ keys kf := alookup_some_mem_keys hkm
  have hpc : p ∈ keys cfm := alookup_some_mem_keys hcm
  have hcom : p ∈ commonSet kf cfm := mem_commonSet.mpr ⟨hpk, hpc⟩
  have hupd : alookup (compare_sharepoints kr cr kf cfm).updated p =
      (updEntry kr cr kf cfm p).map Prod.snd := by
    rw [updated_alookup, if_pos hcom]
  refine ⟨?_, ?_, ?_⟩
  · intro heq
    have inv := compare_inv hk hc
    refine ⟨?_, ?_, ?_, ?_⟩
    · rw [compare_kis_only_eq]
      intro hm
      exact (mem_kisOnlySet.mp (inv.ksub.subset hm)).2 hpc
    · rw [compare_client_only_eq]
      intro hm
      exact (mem_clientOnlySet.mp (inv.csub.subset hm)).2 hpk
    · rw [compare_moved_eq]
      intro e he
      obtain ⟨h1, h2, _, _, _, _⟩ := inv.halves e he
      constructor
      · intro hpe
        exact (mem_kisOnlySet.mp h1).2 (hpe ▸ hpc)
      · intro hpe
        exact (mem_clientOnlySet.mp h2).2 (hpe ▸ hpk)
    · rw [hupd]
      unfold updEntry
      rw [hkm, hcm]
      simp [heq]
  · intro hlt
    rw [hupd]
    unfold updEntry
    rw [hkm, hcm]
    simp [hlt]
  · intro hlt
    rw [hupd]
    unfold updEntry
    rw [hkm, hcm]
    simp [hlt, lt_asymm hlt]

theorem update_detection_witness :
    alookup (compare_sharepoints ["K"] ["C"] [(["notes.txt"], FileMeta.mk 100 0)]
      [(["notes.txt"], FileMeta.mk 200 0)]).updated ["notes.txt"] = some ["C", "notes.txt"] :=
  (update_detection ["K"] ["C"] [(["notes.txt"], FileMeta.mk 100 0)]
    [(["notes.txt"], FileMeta.mk 200 0)] (by decide) (by decide) ["notes.txt"]
    (FileMeta.mk 100 0) (FileMeta.mk 200 0) rfl rfl).2.2 (by decide)

/-! ### Unique-base-name move pairing (for the amended move-detection claim) -/

theorem find?_unique {α : Type} {pred : α → Bool} {a : α} :
    ∀ {l : List α}, a ∈ l → pred a = true → (∀ x ∈ l, pred x = true → x = a) →
      l.find? pred = some a
  | [], ha, _, _ => absurd ha (List.not_mem_nil a)
  | x :: l, ha, hpa, huniq => by
      by_cases hx : pred x = true
      · rw [List.find?_cons_of_pos _ hx, huniq x (List.mem_cons_self _ _) hx]
      · rw [List.find?_cons_of_neg _ (by simpa using hx)]
        have hal : a ∈ l := by
          rcases List.mem_cons.mp ha with h | h
          · subst h
            exact absurd hpa hx
          · exact h
        exact find?_unique hal hpa (fun y hy hpy => huniq y (List.mem_cons_of_mem _ hy) hpy)

/-- Processing entries whose base names all differ from `pathName cfp`
never removes `cfp` from the live client-only set. -/
theorem runMove_client_mem_preserved {cfp : Path} :
    ∀ (l : List Path) (st : MoveState), cfp ∈ st.client_only →
      (∀ q ∈ l, pathName q ≠ pathName cfp) → cfp ∈ (runMove l st).client_only
  | [], _, hmem, _ => hmem
  | p :: l, st, hmem, hnames => by
      rw [runMove_cons]
      refine runMove_client_mem_preserved l (moveStep st p) ?_
        (fun q hq => hnames q (List.mem_cons_of_mem _ hq))
      unfold moveStep
      cases hfind : st.client_only.find? (fun cf => decide (pathName cf = pathName p)) with
      | none => exact hmem
      | some cf =>
          have hstep := List.find?_some hfind
          have hcfname : pathName cf = pathName p := of_decide_eq_true hstep
          have hne : cfp ≠ cf := by
            intro hcc
            exact hnames p (List.mem_cons_self _ _)
              (by rw [← hcfname, ← hcc])
          exact (List.mem_erase_of_ne hne).mpr hmem

/-- Processing entries whose base names all differ from `n` never changes
the moved entry stored under key `n`. -/
theorem runMove_moved_alookup_preserved {n : String} :
    ∀ (l : List Path) (st : MoveState), (∀ q ∈ l, pathName q ≠ n) →
      alookup (runMove l st).moved n = alookup st.moved n
  | [], _, _ => rfl
  | p :: l, st, hnames => by
      rw [runMove_cons,
        runMove_moved_alookup_preserved l (moveStep st p)
          (fun q hq => hnames q (List.mem_cons_of_mem _ hq))]
      unfold moveStep
      cases hfind : st.client_only.find? (fun cf => decide (pathName cf = pathName p)) with
      | none => rfl
      | some cf =>
          exact alookup_dictInsert_ne st.moved _ (hnames p (List.mem_cons_self _ _))

/-- C2 (amended): when the base name of `p` is unique in `primary_only` and
matched by exactly one path `cfp` in `secondary_only`, the pair `(p, cfp)`
is recorded under that base name and both halves leave the only-sets. -/
theorem moved_of_unique_basename (kr cr : Path) (kf cfm : FileMap)
    (hk : (keys kf).Nodup) (hc : (keys cfm).Nodup) (p cfp : Path)
    (hp : p ∈ kisOnlySet kf cfm) (hcf : cfp ∈ clientOnlySet kf cfm)
    (hname : pathName cfp = pathName p)
    (huK : ∀ q ∈ kisOnlySet kf cfm, pathName q = pathName p → q = p)
    (huC : ∀ q ∈ clientOnlySet kf cfm, pathName q = pathName p → q = cfp) :
    alookup (compare_sharepoints kr cr kf cfm).moved (pathName p) = some (p, cfp) ∧
    p ∉ (compare_sharepoints kr cr kf cfm).kis_only ∧
    cfp ∉ (compare_sharepoints kr cr kf cfm).client_only := by
  obtain ⟨l1, l2, hsplit⟩ := List.append_of_mem hp
  have hnodupK : (kisOnlySet kf cfm).Nodup := kisOnlySet_nodup hk
  have hnd2 := hsplit ▸ hnodupK
  rw [List.nodup_append] at hnd2
  have hpl1 : p ∉ l1 := fun hm => (hnd2.2.2 hm) (List.mem_cons_self _ _)
  have hpl2 : p ∉ l2 := (List.nodup_cons.mp hnd2.2.1).1
  have hsub1 : ∀ q ∈ l1, q ∈ kisOnlySet kf cfm := by
    intro q hq
    rw [hsplit]
    exact List.mem_append_left _ hq
  have hsub2 : ∀ q ∈ l2, q ∈ kisOnlySet kf cfm := by
    intro q hq
    rw [hsplit]
    exact List.mem_append_right _ (List.mem_cons_of_mem _ hq)
  have hn1 : ∀ q ∈ l1, pathName q ≠ pathName p := by
    intro q hq hn
    exact hpl1 (huK q (hsub1 q hq) hn ▸ hq)
  have hn2 : ∀ q ∈ l2, pathName q ≠ pathName p := by
    intro q hq hn
    exact hpl2 (huK q (hsub2 q hq) hn ▸ hq)
  set st0 := MoveState.mk (kisOnlySet kf cfm) (clientOnlySet kf cfm)
    ([] : List (String × Path × Path)) with hst0
  set st1 := runMove l1 st0 with hst1
  have inv1 : MoveInv (kisOnlySet kf cfm) (clientOnlySet kf cfm) st1 :=
    runMove_inv hsub1 (moveInv_init hnodupK (clientOnlySet_nodup hc))
  have hcf1 : cfp ∈ st1.client_only := by
    refine runMove_client_mem_preserved l1 st0 hcf ?_
    intro q hq
    rw [hname]
    exact hn1 q hq
  have hfind : st1.client_only.find? (fun cf => decide (pathName cf = pathName p))
      = some cfp := by
    refine find?_unique hcf1 (decide_eq_true hname) ?_
    intro x hx hpx
    exact huC x (inv1.csub.subset hx) (of_decide_eq_true hpx)
  have hstep : moveStep st1 p = MoveState.mk (st1.kis_only.erase p)
      (st1.client_only.erase cfp) (dictInsert st1.moved (pathName p) (p, cfp)) := by
    unfold moveStep
    rw [hfind]
  have hrun : runMove (kisOnlySet kf cfm) st0 = runMove l2 (moveStep st1 p) := by
    rw [hsplit, runMove_append, runMove_cons]
  have hkis2 : p ∉ (moveStep st1 p).kis_only := by
    rw [hstep]
    intro hm
    exact (inv1.knd.mem_erase_iff.mp hm).1 rfl
  have hcli2 : cfp ∉ (moveStep st1 p).client_only := by
    rw [hstep]
    intro hm
    exact (inv1.cnd.mem_erase_iff.mp hm).1 rfl
  refine ⟨?_, ?_, ?_⟩
  · rw [compare_moved_eq, hrun, runMove_moved_alookup_preserved l2 _ hn2, hstep]
    exact alookup_dictInsert_self st1.moved (pathName p) (p, cfp)
  · rw [compare_kis_only_eq, hrun]
    intro hm
    exact hkis2 ((runMove_kis_only_sublist l2 _).subset hm)
  · rw [compare_client_only_eq, hrun]
    intro hm
    exact hcli2 ((runMove_client_only_sublist l2 _).subset hm)

theorem moved_of_unique_basename_witness :
    alookup (compare_sharepoints ["K"] ["C"] [(["x", "f.txt"], FileMeta.mk 0 0)]
      [(["y", "f.txt"], FileMeta.mk 0 0)]).moved (pathName ["x", "f.txt"]) =
      some (["x", "f.txt"], ["y", "f.txt"]) :=
  (moved_of_unique_basename ["K"] ["C"] [(["x", "f.txt"], FileMeta.mk 0 0)]
    [(["y", "f.txt"], FileMeta.mk 0 0)] (by decide) (by decide)
    ["x", "f.txt"] ["y", "f.txt"] (by decide) (by decide) (by decide)
    (by decide) (by decide)).1

/-- C2 counterexample: with two secondary-only candidates sharing the base
name, the code pairs the first candidate in the set's iteration order, not
the first in sorted order. -/
theorem move_match_not_sorted :
    (["a", "f"] : Path) ∈ clientOnlySet [(["p", "f"], FileMeta.mk 0 0)]
      [(["b", "f"], FileMeta.mk 0 0), (["a", "f"], FileMeta.mk 0 0)] ∧
    pathName ["a", "f"] = pathName ["p", "f"] ∧
    String.intercalate "/" ["a", "f"] < String.intercalate "/" ["b", "f"] ∧
    alookup (compare_sharepoints ["K"] ["C"] [(["p", "f"], FileMeta.mk 0 0)]
      [(["b", "f"], FileMeta.mk 0 0), (["a", "f"], FileMeta.mk 0 0)]).moved "f" =
      some (["p", "f"], ["b", "f"]) := by
  refine ⟨by decide, by decide, ?_, by decide⟩
  exact String.lt_iff_toList_lt.mpr (by decide)

/-! ### Partition (mutual exclusivity) of the result categories -/

/-- C1 (amended): every relative path appears in at most one of
{primary-only, secondary-only, one half of a moved pair, an updated entry};
a path in sync appears in none; but a not-in-sync path may appear in zero
categories when a base-name collision overwrites an earlier moved pair. -/
theorem partition_at_most_one (kr cr : Path) (kf cfm : FileMap)
    (hk : (keys kf).Nodup) (hc : (keys cfm).Nodup) (p : Path) :
    (p ∈ (compare_sharepoints kr cr kf cfm).kis_only →
      p ∉ (compare_sharepoints kr cr kf cfm).client_only ∧
      (∀ e ∈ (compare_sharepoints kr cr kf cfm).moved, p ≠ e.2.1 ∧ p ≠ e.2.2) ∧
      alookup (compare_sharepoints kr cr kf cfm).updated p = none) ∧
    (p ∈ (compare_sharepoints kr cr kf cfm).client_only →
      (∀ e ∈ (compare_sharepoints kr cr kf cfm).moved, p ≠ e.2.1 ∧ p ≠ e.2.2) ∧
      alookup (compare_sharepoints kr cr kf cfm).updated p = none) ∧
    (∀ e ∈ (compare_sharepoints kr cr kf cfm).moved, p = e.2.1 ∨ p = e.2.2 →
      e.2.1 ≠ e.2.2 ∧
      alookup (compare_sharepoints kr cr kf cfm).updated p = none ∧
      (∀ x ∈ (compare_sharepoints kr cr kf cfm).moved, x ≠ e → p ≠ x.2.1 ∧ p ≠ x.2.2)) := by
  have inv := compare_inv hk hc
  have hupd_none : ∀ q : Path, q ∉ keys kf ∨ q ∉ keys cfm →
      alookup (compare_sharepoints kr cr kf cfm).updated q = none := by
    intro q hq
    rw [updated_alookup, if_neg]
    intro hm
    rcases hq with h | h
    · exact h (mem_commonSet.mp hm).1
    · exact h (mem_commonSet.mp hm).2
  refine ⟨?_, ?_, ?_⟩
  · intro hpk
    rw [compare_kis_only_eq] at hpk
    have hp0 := mem_kisOnlySet.mp (inv.ksub.subset hpk)
    refine ⟨?_, ?_, hupd_none p (Or.inr hp0.2)⟩
    · rw [compare_client_only_eq]
      intro hm
      exact hp0.2 (mem_clientOnlySet.mp (inv.csub.subset hm)).1
    · rw [compare_moved_eq]
      intro e he
      obtain ⟨hK, hC, hnk, _, _, _⟩ := inv.halves e he
      constructor
      · intro hpe
        exact hnk (hpe ▸ hpk)
      · intro hpe
        exact hp0.2 (hpe ▸ (mem_clientOnlySet.mp hC).1)
  · intro hpc
    rw [compare_client_only_eq] at hpc
    have hp0 := mem_clientOnlySet.mp (inv.csub.subset hpc)
    refine ⟨?_, hupd_none p (Or.inl hp0.2)⟩
    rw [compare_moved_eq]
    intro e he
    obtain ⟨hK, hC, _, hnc, _, _⟩ := inv.halves e he
    constructor
    · intro hpe
      exact hp0.2 (hpe ▸ (mem_kisOnlySet.mp hK).1)
    · intro hpe
      exact hnc (hpe ▸ hpc)
  · intro e he hpe
    rw [compare_moved_eq] at he
    obtain ⟨hK, hC, _, _, h5, h6⟩ := inv.halves e he
    have hK1 := mem_kisOnlySet.mp hK
    have hC1 := mem_clientOnlySet.mp hC
    refine ⟨?_, ?_, ?_⟩
    · intro heq
      exact hK1.2 (heq ▸ hC1.1)
    · rcases hpe with hpe | hpe
      · exact hupd_none p (Or.inr (hpe ▸ hK1.2))
      · exact hupd_none p (Or.inl (hpe ▸ hC1.2))
    · intro x hx hxe
      rw [compare_moved_eq] at hx
      obtain ⟨hxK, hxC, _, _, hx5, hx6⟩ := inv.halves x hx
      have hxK1 := mem_kisOnlySet.mp hxK
      have hxC1 := mem_clientOnlySet.mp hxC
      rcases hpe with hpe | hpe
      · constructor
        · intro hpx
          refine hxe (entry_eq_of_nodup_keys inv.mkeys hx he ?_)
          calc x.1 = pathName x.2.1 := hx5
            _ = pathName e.2.1 := by rw [← hpx, hpe]
            _ = e.1 := h5.symm
        · intro hpx
          exact hK1.2 (by rw [← hpe, hpx]; exact hxC1.1)
      · constructor
        · intro hpx
          exact hxK1.2 (by rw [← hpx, hpe]; exact hC1.1)
        · intro hpx
          refine hxe (entry_eq_of_nodup_keys inv.mkeys hx he ?_)
          calc x.1 = pathName x.2.2 := hx6
            _ = pathName e.2.2 := by rw [← hpx, hpe]
            _ = e.1 := h6.symm

theorem partition_at_most_one_witness :
    (["u", "g"] : Path) ∈ (compare_sharepoints ["K"] ["C"]
      [(["u", "g"], FileMeta.mk 0 0)] [(["w", "h"], FileMeta.mk 0 0)]).kis_only ∧
    alookup (compare_sharepoints ["K"] ["C"]
      [(["u", "g"], FileMeta.mk 0 0)] [(["w", "h"], FileMeta.mk 0 0)]).updated
      ["u", "g"] = none :=
  ⟨by decide,
    ((partition_at_most_one ["K"] ["C"] [(["u", "g"], FileMeta.mk 0 0)]
      [(["w", "h"], FileMeta.mk 0 0)] (by decide) (by decide) ["u", "g"]).1
      (by decide)).2.2⟩

/-- C1 counterexample: two primary files and two secondary files all named
`f`; the second moved pair overwrites the first in the name-keyed dict, so
`a/f` is present only in the primary tree (not in sync) yet appears in no
category of the result. -/
theorem partition_dropped_path :
    (["a", "f"] : Path) ∈ keys
      [(["a", "f"], FileMeta.mk 0 0), (["b", "f"], FileMeta.mk 0 0)] ∧
    (["a", "f"] : Path) ∉ keys
      [(["c", "f"], FileMeta.mk 0 0), (["d", "f"], FileMeta.mk 0 0)] ∧
    (["a", "f"] : Path) ∉ (compare_sharepoints ["K"] ["C"]
      [(["a", "f"], FileMeta.mk 0 0), (["b", "f"], FileMeta.mk 0 0)]
      [(["c", "f"], FileMeta.mk 0 0), (["d", "f"], FileMeta.mk 0 0)]).kis_only ∧
    (["a", "f"] : Path) ∉ (compare_sharepoints ["K"] ["C"]
      [(["a", "f"], FileMeta.mk 0 0), (["b", "f"], FileMeta.mk 0 0)]
      [(["c", "f"], FileMeta.mk 0 0), (["d", "f"], FileMeta.mk 0 0)]).client_only ∧
    (∀ e ∈ (compare_sharepoints ["K"] ["C"]
      [(["a", "f"], FileMeta.mk 0 0), (["b", "f"], FileMeta.mk 0 0)]
      [(["c", "f"], FileMeta.mk 0 0), (["d", "f"], FileMeta.mk 0 0)]).moved,
      (["a", "f"] : Path) ≠ e.2.1 ∧ (["a", "f"] : Path) ≠ e.2.2) ∧
    alookup (compare_sharepoints ["K"] ["C"]
      [(["a", "f"], FileMeta.mk 0 0), (["b", "f"], FileMeta.mk 0 0)]
      [(["c", "f"], FileMeta.mk 0 0), (["d", "f"], FileMeta.mk 0 0)]).updated
      ["a", "f"] = none := by
  decide

/-! ### Iteration-order (in)dependence of the reconciliation -/

theorem perm_alookup {κ α : Type} [DecidableEq κ] {l l2 : List (κ × α)}
    (hperm : l.Perm l2) (hnd : (l.map Prod.fst).Nodup) (k : κ) :
    alookup l k = alookup l2 k := by
  have hnd2 : (l2.map Prod.fst).Nodup := ((hperm.map Prod.fst).nodup_iff).mp hnd
  cases h : alookup l k with
  | none =>
      symm
      rw [alookup_eq_none_iff] at h ⊢
      intro hm
      exact h ((hperm.map Prod.fst).mem_iff.mpr hm)
  | some v =>
      exact (mem_alookup (hperm.subset (alookup_mem h)) hnd2).symm

/-- C8 (amended): on unchanged trees the pre-move only-sets and the whole
updated mapping are independent of set-iteration order; only the moved
mapping (and hence the final only-sets) can differ between runs when base
names collide. -/
theorem updated_iteration_order_independent (kr cr : Path) (kf kf2 cfm cfm2 : FileMap)
    (hpk : kf.Perm kf2) (hpc : cfm.Perm cfm2)
    (hk : (keys kf).Nodup) (hc : (keys cfm).Nodup) (p : Path) :
    alookup (compare_sharepoints kr cr kf cfm).updated p =
      alookup (compare_sharepoints kr cr kf2 cfm2).updated p ∧
    (p ∈ kisOnlySet kf cfm ↔ p ∈ kisOnlySet kf2 cfm2) ∧
    (p ∈ clientOnlySet kf cfm ↔ p ∈ clientOnlySet kf2 cfm2) := by
  have hkk : ∀ q : Path, q ∈ keys kf ↔ q ∈ keys kf2 :=
    fun q => (hpk.map Prod.fst).mem_iff
  have hcc : ∀ q : Path, q ∈ keys cfm ↔ q ∈ keys cfm2 :=
    fun q => (hpc.map Prod.fst).mem_iff
  have hcom : p ∈ commonSet kf cfm ↔ p ∈ commonSet kf2 cfm2 := by
    rw [mem_commonSet, mem_commonSet, hkk p, hcc p]
  refine ⟨?_, ?_, ?_⟩
  · rw [updated_alookup, updated_alookup]
    by_cases hm : p ∈ commonSet kf cfm
    · rw [if_pos hm, if_pos (hcom.mp hm)]
      have he : updEntry kr cr kf cfm p = updEntry kr cr kf2 cfm2 p := by
        unfold updEntry
        rw [perm_alookup hpk hk p, perm_alookup hpc hc p]
      rw [he]
    · rw [if_neg hm, if_neg (fun hm2 => hm (hcom.mpr hm2))]
  · rw [mem_kisOnlySet, mem_kisOnlySet, hkk p, hcc p]
  · rw [mem_clientOnlySet, mem_clientOnlySet, hkk p, hcc p]

theorem updated_iteration_order_independent_witness :
    alookup (compare_sharepoints ["K"] ["C"]
      [(["m"], FileMeta.mk 1 0), (["n"], FileMeta.mk 5 0)]
      [(["n"], FileMeta.mk 3 0)]).updated ["n"] =
    alookup (compare_sharepoints ["K"] ["C"]
      [(["n"], FileMeta.mk 5 0), (["m"], FileMeta.mk 1 0)]
      [(["n"], FileMeta.mk 3 0)]).updated ["n"] :=
  (updated_iteration_order_independent ["K"] ["C"]
    [(["m"], FileMeta.mk 1 0), (["n"], FileMeta.mk 5 0)]
    [(["n"], FileMeta.mk 5 0), (["m"], FileMeta.mk 1 0)]
    [(["n"], FileMeta.mk 3 0)] [(["n"], FileMeta.mk 3 0)]
    (List.Perm.swap _ _ _) (List.Perm.refl _) (by decide) (by decide) ["n"]).1

/-- C8 counterexample: the same tree contents presented in two different
set-iteration orders yield different `moved` mapping contents, so the result
is not independent of iteration order. -/
theorem reconciliation_order_dependent :
    List.Perm
      [((["a", "f"] : Path), FileMeta.mk 0 0), ((["b", "f"] : Path), FileMeta.mk 0 0)]
      [((["b", "f"] : Path), FileMeta.mk 0 0), ((["a", "f"] : Path), FileMeta.mk 0 0)] ∧
    alookup (compare_sharepoints ["K"] ["C"]
      [(["a", "f"], FileMeta.mk 0 0), (["b", "f"], FileMeta.mk 0 0)]
      [(["d", "f"], FileMeta.mk 0 0)]).moved "f" = some (["a", "f"], ["d", "f"]) ∧
    alookup (compare_sharepoints ["K"] ["C"]
      [(["b", "f"], FileMeta.mk 0 0), (["a", "f"], FileMeta.mk 0 0)]
      [(["d", "f"], FileMeta.mk 0 0)]).moved "f" = some (["b", "f"], ["d", "f"]) ∧
    (["a", "f"] : Path) ≠ ["b", "f"] := by
  refine ⟨List.Perm.swap _ _ _, by decide, by decide, by decide⟩

end SharePointSync
